import Mathlib

/-!
Verification of the NBT editor core (src/nbt_editor.cpp) against its
natural-language specification.

Shallow embedding conventions:
* `TagType` mirrors the C++ `enum class TagType`.
* `NBTTag` mirrors the C++ `NBTTag`/`NBTValue` pair.  The C++ code stores
  `type` twice (once in `NBTTag`, once in `NBTValue`); both copies are set
  from the same constructor argument and never reassigned, so the model
  keeps a single `type` field.  All payload fields of `NBTValue` are kept,
  exactly as in the struct (every field exists simultaneously; the code
  only ever reads the field matching `type`).
* `float`/`double` payloads are carried as their IEEE-754 bit patterns
  (`Int`), never interpreted arithmetically: no operation under
  verification computes with them.
* `std::map<std::string, std::shared_ptr<NBTTag>> compoundVal` is modelled
  as an association list kept in ascending key order, the iteration order
  of `std::map`; `mapInsert` is the semantics of `compoundVal[key] = tag`
  (insert at the sorted position, or overwrite an existing entry).
  `strLt` is `std::less<std::string>`: byte-wise lexicographic comparison.
* `shared_ptr` identity: a pointer to a node inside the tree is modelled
  as the path (list of child indices) from the root to that node.
* machine integers are `Int` with explicit two's-complement wrapping where
  the C++ code truncates or reinterprets.
-/

inductive TagType where
  | END | BYTE | SHORT | INT | LONG | FLOAT | DOUBLE
  | BYTE_ARRAY | STRING | LIST | COMPOUND | INT_ARRAY | LONG_ARRAY
  deriving DecidableEq

inductive NBTTag : Type where
  | mk (type : TagType) (name : String)
       (byteVal shortVal intVal longVal floatBits doubleBits : Int)
       (stringVal : String)
       (byteArrayVal intArrayVal longArrayVal : List Int)
       (listVal : List NBTTag)
       (compoundVal : List (String × NBTTag))

def NBTTag.type : NBTTag → TagType
  | .mk ty _ _ _ _ _ _ _ _ _ _ _ _ _ => ty

def NBTTag.name : NBTTag → String
  | .mk _ n _ _ _ _ _ _ _ _ _ _ _ _ => n

def NBTTag.byteVal : NBTTag → Int
  | .mk _ _ b _ _ _ _ _ _ _ _ _ _ _ => b

def NBTTag.shortVal : NBTTag → Int
  | .mk _ _ _ s _ _ _ _ _ _ _ _ _ _ => s

def NBTTag.intVal : NBTTag → Int
  | .mk _ _ _ _ iv _ _ _ _ _ _ _ _ _ => iv

def NBTTag.longVal : NBTTag → Int
  | .mk _ _ _ _ _ lg _ _ _ _ _ _ _ _ => lg

def NBTTag.floatBits : NBTTag → Int
  | .mk _ _ _ _ _ _ fb _ _ _ _ _ _ _ => fb

def NBTTag.doubleBits : NBTTag → Int
  | .mk _ _ _ _ _ _ _ db _ _ _ _ _ _ => db

def NBTTag.stringVal : NBTTag → String
  | .mk _ _ _ _ _ _ _ _ sv _ _ _ _ _ => sv

def NBTTag.listVal : NBTTag → List NBTTag
  | .mk _ _ _ _ _ _ _ _ _ _ _ _ lv _ => lv

def NBTTag.compoundVal : NBTTag → List (String × NBTTag)
  | .mk _ _ _ _ _ _ _ _ _ _ _ _ _ cv => cv

def NBTTag.withName (n' : String) : NBTTag → NBTTag
  | .mk ty _ b s iv lg fb db sv ba ia la lv cv => .mk ty n' b s iv lg fb db sv ba ia la lv cv

def NBTTag.withByteVal (b' : Int) : NBTTag → NBTTag
  | .mk ty n _ s iv lg fb db sv ba ia la lv cv => .mk ty n b' s iv lg fb db sv ba ia la lv cv

def NBTTag.withShortVal (s' : Int) : NBTTag → NBTTag
  | .mk ty n b _ iv lg fb db sv ba ia la lv cv => .mk ty n b s' iv lg fb db sv ba ia la lv cv

def NBTTag.withIntVal (i' : Int) : NBTTag → NBTTag
  | .mk ty n b s _ lg fb db sv ba ia la lv cv => .mk ty n b s i' lg fb db sv ba ia la lv cv

def NBTTag.withLongVal (l' : Int) : NBTTag → NBTTag
  | .mk ty n b s iv _ fb db sv ba ia la lv cv => .mk ty n b s iv l' fb db sv ba ia la lv cv

def NBTTag.withFloatBits (f' : Int) : NBTTag → NBTTag
  | .mk ty n b s iv lg _ db sv ba ia la lv cv => .mk ty n b s iv lg f' db sv ba ia la lv cv

def NBTTag.withDoubleBits (d' : Int) : NBTTag → NBTTag
  | .mk ty n b s iv lg fb _ sv ba ia la lv cv => .mk ty n b s iv lg fb d' sv ba ia la lv cv

def NBTTag.withStringVal (s' : String) : NBTTag → NBTTag
  | .mk ty n b s iv lg fb db _ ba ia la lv cv => .mk ty n b s iv lg fb db s' ba ia la lv cv

def NBTTag.withListVal (l' : List NBTTag) : NBTTag → NBTTag
  | .mk ty n b s iv lg fb db sv ba ia la _ cv => .mk ty n b s iv lg fb db sv ba ia la l' cv

def NBTTag.withCompoundVal (c' : List (String × NBTTag)) : NBTTag → NBTTag
  | .mk ty n b s iv lg fb db sv ba ia la lv _ => .mk ty n b s iv lg fb db sv ba ia la lv c'

/-- The C++ constructor `NBTTag(t, n)`: every payload field default-initialized. -/
def newTag (ty : TagType) (n : String) : NBTTag :=
  .mk ty n 0 0 0 0 0 0 "" [] [] [] [] []

/-- Byte-wise lexicographic order on character lists: the comparison
`std::less<std::string>` performs (`compare`/`memcmp` semantics). -/
def strLtB : List Char → List Char → Bool
  | [], [] => false
  | [], _ :: _ => true
  | _ :: _, [] => false
  | a :: as, b :: bs =>
    if a.toNat < b.toNat then true
    else if b.toNat < a.toNat then false
    else strLtB as bs

def strLt (a b : String) : Bool := strLtB a.data b.data

/-- `compoundVal[k] = v` on a `std::map` held as a key-sorted association
list: insert before the first larger key, or overwrite an equal key. -/
def mapInsert (k : String) (v : NBTTag) : List (String × NBTTag) → List (String × NBTTag)
  | [] => [(k, v)]
  | (k', v') :: rest =>
    if strLt k k' then (k, v) :: (k', v') :: rest
    else if k = k' then (k, v) :: rest
    else (k', v') :: mapInsert k v rest

/-- `std::map::find(k)` restricted to what the proofs need: association lookup. -/
def mapFind (k : String) : List (String × NBTTag) → Option NBTTag
  | [] => none
  | (k', v') :: rest => if k = k' then some v' else mapFind k rest

/-!
`NBTFile::load` (src/nbt_editor.cpp lines 318-359).  The function ignores
the file entirely: it installs a hardcoded fixture tree and returns true.
Each `compoundVal[...] = ...` assignment is a `mapInsert`, performed in
the source's order.  IEEE-754 bit patterns: 20.0f = 0x41A00000,
100.5 = 0x4059200000000000, 64.0 = 0x4050000000000000,
-200.75 = 0xC069180000000000.
-/

def loadNameTag : NBTTag := (newTag .STRING "name").withStringVal "Test Player"

def loadHealthTag : NBTTag := (newTag .FLOAT "health").withFloatBits 0x41A00000

def loadPosTag : NBTTag :=
  (newTag .LIST "position").withListVal
    [(newTag .DOUBLE "").withDoubleBits 0x4059200000000000,
     (newTag .DOUBLE "").withDoubleBits 0x4050000000000000,
     (newTag .DOUBLE "").withDoubleBits 0xC069180000000000]

def loadItem1 : NBTTag :=
  (newTag .COMPOUND "").withCompoundVal
    (mapInsert "count" ((newTag .BYTE "count").withByteVal 1)
      (mapInsert "id" ((newTag .SHORT "id").withShortVal 276) []))

def loadItem2 : NBTTag :=
  (newTag .COMPOUND "").withCompoundVal
    (mapInsert "count" ((newTag .BYTE "count").withByteVal 5)
      (mapInsert "id" ((newTag .SHORT "id").withShortVal 264) []))

def loadItemsTag : NBTTag := (newTag .LIST "items").withListVal [loadItem1, loadItem2]

def loadInventoryTag : NBTTag :=
  (newTag .COMPOUND "inventory").withCompoundVal (mapInsert "items" loadItemsTag [])

/-- The tree `NBTFile::load` installs as `rootTag`, regardless of the file. -/
def NBTFile.loadTree : NBTTag :=
  (newTag .COMPOUND "root").withCompoundVal
    (mapInsert "inventory" loadInventoryTag
      (mapInsert "position" loadPosTag
        (mapInsert "health" loadHealthTag
          (mapInsert "name" loadNameTag []))))

/-- `NBTFile::save` (lines 361-363): writes nothing, returns true. -/
def NBTFile.save (_root : NBTTag) : Bool := true

/-- The children a node exposes to traversal: `compoundVal` values in
stored (map) order for a Compound, `listVal` in order for a List,
nothing otherwise — the two loops of `NBTEditor::flattenTags`. -/
def childrenOf (t : NBTTag) : List NBTTag :=
  match t.type with
  | .COMPOUND => t.compoundVal.map Prod.snd
  | .LIST => t.listVal
  | _ => []

mutual
/-- `NBTEditor::flattenTags` (lines 365-379): push the node, then recurse
into compound entries (map iteration order) or list items. -/
def flattenTags : NBTTag → List NBTTag
  | .mk ty n b s iv lg fb db sv ba ia la lv cv =>
    .mk ty n b s iv lg fb db sv ba ia la lv cv ::
      (match ty with
       | .COMPOUND => flattenPairs cv
       | .LIST => flattenList lv
       | _ => [])

def flattenList : List NBTTag → List NBTTag
  | [] => []
  | x :: xs => flattenTags x ++ flattenList xs

def flattenPairs : List (String × NBTTag) → List NBTTag
  | [] => []
  | (_, v) :: xs => flattenTags v ++ flattenPairs xs
end

mutual
/-- The same traversal on node identities: entry `i` of `preorderPaths t`
is the path (child-index list) of the node the C++ `flatTagList[i]`
pointer refers to. -/
def preorderPaths : NBTTag → List (List Nat)
  | .mk ty _ _ _ _ _ _ _ _ _ _ _ lv cv =>
    [] :: (match ty with
           | .COMPOUND => pathsPairs 0 cv
           | .LIST => pathsList 0 lv
           | _ => [])

def pathsList : Nat → List NBTTag → List (List Nat)
  | _, [] => []
  | i, x :: xs => (preorderPaths x).map (fun p => i :: p) ++ pathsList (i + 1) xs

def pathsPairs : Nat → List (String × NBTTag) → List (List Nat)
  | _, [] => []
  | i, (_, v) :: xs => (preorderPaths v).map (fun p => i :: p) ++ pathsPairs (i + 1) xs
end

/-- Paths of a list of children, starting from child index `i`. -/
def pathsAux : Nat → List NBTTag → List (List Nat)
  | _, [] => []
  | i, c :: cs => (preorderPaths c).map (fun p => i :: p) ++ pathsAux (i + 1) cs

/-- Dereference a node pointer (= path from the root). -/
def getNode : NBTTag → List Nat → Option NBTTag
  | t, [] => some t
  | t, i :: p =>
    match (childrenOf t)[i]? with
    | some c => getNode c p
    | none => none

/-- Replace the `snd` of the `i`-th entry of an association list, keeping its key. -/
def setChildPairs : List (String × NBTTag) → Nat → NBTTag → List (String × NBTTag)
  | [], _, _ => []
  | (k, _) :: rest, 0, c => (k, c) :: rest
  | (k, v) :: rest, n + 1, c => (k, v) :: setChildPairs rest n c

/-- Apply `f` to the node a path points at, in place: the pure counterpart
of mutating `*selectedTag` through its `shared_ptr`. -/
def modifyNode : NBTTag → List Nat → (NBTTag → NBTTag) → NBTTag
  | t, [], f => f t
  | .mk ty n b s iv lg fb db sv ba ia la lv cv, i :: p, f =>
    match ty with
    | .COMPOUND =>
      match cv[i]? with
      | some (_, c) =>
        .mk ty n b s iv lg fb db sv ba ia la lv (setChildPairs cv i (modifyNode c p f))
      | none => .mk ty n b s iv lg fb db sv ba ia la lv cv
    | .LIST =>
      match lv[i]? with
      | some c => .mk ty n b s iv lg fb db sv ba ia la (lv.set i (modifyNode c p f)) cv
      | none => .mk ty n b s iv lg fb db sv ba ia la lv cv
    | _ => .mk ty n b s iv lg fb db sv ba ia la lv cv

/-!
`std::stoi` / `std::stoll` (used by `NBTTag::setValueFromString`,
lines 189-215): skip C-locale whitespace, accept an optional sign, then a
nonempty run of decimal digits (trailing junk ignored); throw — modelled
as `none` — when no digits are found (`invalid_argument`) or the value
does not fit the result type (`out_of_range`).
-/

/-- C-locale `isspace`. -/
def isSpaceC (c : Char) : Bool :=
  c.toNat = 32 || c.toNat = 9 || c.toNat = 10 || c.toNat = 11 || c.toNat = 12 || c.toNat = 13

def digitsToNat (cs : List Char) : Nat :=
  cs.foldl (fun a c => a * 10 + (c.toNat - 48)) 0

/-- Parse a nonempty run of decimal digits; `none` when the first
character is not a digit. -/
def parseDigitRun (cs : List Char) : Option Nat :=
  match cs.takeWhile Char.isDigit with
  | [] => none
  | ds => some (digitsToNat ds)

/-- `strtol`-style scan shared by the `stoi`/`stoll` models, before the
range check: whitespace, optional sign, digit run. -/
def scanInteger (s : String) : Option Int :=
  match s.data.dropWhile isSpaceC with
  | '-' :: r => (parseDigitRun r).map (fun n => -(n : Int))
  | '+' :: r => (parseDigitRun r).map (fun n => (n : Int))
  | r => (parseDigitRun r).map (fun n => (n : Int))

/-- `std::stoi`: result must fit a 32-bit `int`, else `out_of_range`. -/
def stoi (s : String) : Option Int :=
  match scanInteger s with
  | none => none
  | some v => if -(2 ^ 31) ≤ v ∧ v < 2 ^ 31 then some v else none

/-- `std::stoll`: result must fit a 64-bit `long long`. -/
def stoll (s : String) : Option Int :=
  match scanInteger s with
  | none => none
  | some v => if -(2 ^ 63) ≤ v ∧ v < 2 ^ 63 then some v else none

/-- `static_cast<int8_t>` of an `int`: two's-complement wrap to 8 bits. -/
def toInt8 (v : Int) : Int := (v + 2 ^ 7) % 2 ^ 8 - 2 ^ 7

/-- `static_cast<int16_t>` of an `int`: two's-complement wrap to 16 bits. -/
def toInt16 (v : Int) : Int := (v + 2 ^ 15) % 2 ^ 16 - 2 ^ 15

/-- `NBTTag::setValueFromString` (lines 189-215).  `none` models a thrown
exception (a failed `stoi`/`stoll`/`stof`/`stod`); on the `default`
branch the C++ does nothing and throws nothing, so the tag is returned
unchanged.  The `float`/`double` parsers `stof`/`stod` are abstracted as
the parameters `pf`/`pd` (returning the parsed IEEE-754 bit pattern, or
`none` for a throw): every theorem below holds for all of them. -/
def setValueFromString (pf pd : String → Option Int) (t : NBTTag) (str : String) :
    Option NBTTag :=
  match t.type with
  | .BYTE => (stoi str).map (fun n => t.withByteVal (toInt8 n))
  | .SHORT => (stoi str).map (fun n => t.withShortVal (toInt16 n))
  | .INT => (stoi str).map (fun n => t.withIntVal n)
  | .LONG => (stoll str).map (fun n => t.withLongVal n)
  | .FLOAT => (pf str).map (fun bits => t.withFloatBits bits)
  | .DOUBLE => (pd str).map (fun bits => t.withDoubleBits bits)
  | .STRING => some (t.withStringVal str)
  | _ => some t

/-- The error taxonomy of spec §7.  The C++ code defines no such type and
never reports an error; the editor operations below return the error they
report through this channel, which lets the spec's error-reporting claims
be stated (and refuted where the code stays silent). -/
inductive EditError where
  | invalidValueFormat | invalidOperation | structuralViolation
  deriving DecidableEq

/-- `NBTEditor` state.  `flatTagList` is not stored: the code refreshes it
after every structural change and `drawEditor` re-derives `selectedTag`
from it before every command, so the list of live pointers always equals
`preorderPaths root` and is recomputed on demand here.  `currentRow` is
the C++ `int`. -/
structure EditorState where
  root : NBTTag
  currentRow : Int
  modified : Bool

/-- `flatTagList.size()` of the current projection. -/
def projLen (st : EditorState) : Int := ((preorderPaths st.root).length : Int)

/-- `selectedTag` as a node pointer: `flatTagList[currentRow]` when the
row is a valid index, otherwise no selection. -/
def selectedPath (st : EditorState) : Option (List Nat) :=
  if st.currentRow < 0 then none
  else (preorderPaths st.root)[st.currentRow.toNat]?

/-- The scalar/string type guard at the top of `NBTEditor::editValue`. -/
def scalarEditable (ty : TagType) : Bool :=
  match ty with
  | .BYTE | .SHORT | .INT | .LONG | .FLOAT | .DOUBLE | .STRING => true
  | _ => false

/-- `NBTEditor::editValue` (lines 439-489), parameterized by the text the
user commits (`mvgetnstr` result, assumed `OK`).  The `catch` block in the
source is empty: a parse failure changes nothing and reports nothing. -/
def editValue (pf pd : String → Option Int) (st : EditorState) (input : String) :
    EditorState × Option EditError :=
  match selectedPath st with
  | none => (st, none)
  | some p =>
    match getNode st.root p with
    | none => (st, none)
    | some tag =>
      if scalarEditable tag.type then
        match setValueFromString pf pd tag input with
        | some tag' =>
          ({ st with root := modifyNode st.root p (fun _ => tag'), modified := true }, none)
        | none => (st, none)
      else (st, none)

/-- `NBTEditor::addTag` (lines 497-505): on a selected Compound, execute
`compoundVal["new_tag"] = <STRING "new_tag" = "value">`, refresh the flat
list, set `modified`. -/
def addTag (st : EditorState) : EditorState × Option EditError :=
  match selectedPath st with
  | none => (st, none)
  | some p =>
    match getNode st.root p with
    | none => (st, none)
    | some tag =>
      if tag.type = TagType.COMPOUND then
        ({ st with
            root := modifyNode st.root p
              (fun t => t.withCompoundVal
                (mapInsert "new_tag" ((newTag .STRING "new_tag").withStringVal "value")
                  t.compoundVal)),
            modified := true }, none)
      else (st, none)

/-- `NBTEditor::deleteTag` (lines 507-512): on any selected non-root node,
prepend "[DELETED] " to its `name` field (the map key is untouched) and
set `modified`; on the root (pointer equality with `getRoot()`, i.e. the
empty path) do nothing at all. -/
def deleteTag (st : EditorState) : EditorState × Option EditError :=
  match selectedPath st with
  | none => (st, none)
  | some p =>
    if p = [] then (st, none)
    else
      match getNode st.root p with
      | none => (st, none)
      | some _ =>
        ({ st with
            root := modifyNode st.root p (fun t => t.withName ("[DELETED] " ++ t.name)),
            modified := true }, none)

/-- `NBTEditor::saveChanges` (lines 491-495): `save()` always returns
true, so `modified` is always cleared. -/
def saveChanges (st : EditorState) : EditorState :=
  if NBTFile.save st.root then { st with modified := false } else st

/-- The keys `NBTEditor::handleInput` dispatches on. -/
inductive Key where
  | up | down | keyE | keyA | keyD | keyS | other

/-- `NBTEditor::handleInput` (lines 514-545).  `input` is the text typed
into the edit prompt when the key is `e`. -/
def handleInput (pf pd : String → Option Int) (k : Key) (input : String)
    (st : EditorState) : EditorState × Option EditError :=
  match k with
  | .up =>
    (if st.currentRow > 0 then { st with currentRow := st.currentRow - 1 } else st, none)
  | .down =>
    (if st.currentRow < projLen st - 1 then { st with currentRow := st.currentRow + 1 }
     else st, none)
  | .keyE => editValue pf pd st input
  | .keyA => addTag st
  | .keyD => deleteTag st
  | .keyS => (saveChanges st, none)
  | .other => (st, none)

/-- The state `NBTEditor::run` reaches after `load()` and the initial
`refreshTagList()`. -/
def initState : EditorState :=
  { root := NBTFile.loadTree, currentRow := 0, modified := false }

/-! Characterizations of the mutual traversal functions. -/

theorem flattenList_eq_flatMap (l : List NBTTag) : flattenList l = l.flatMap flattenTags := by
  induction l with
  | nil => rw [flattenList]; rfl
  | cons x xs ih => rw [flattenList, ih]; rfl

theorem flattenPairs_eq_flatMap (l : List (String × NBTTag)) :
    flattenPairs l = (l.map Prod.snd).flatMap flattenTags := by
  induction l with
  | nil => rw [flattenPairs]; rfl
  | cons x xs ih =>
    obtain ⟨k, v⟩ := x
    rw [flattenPairs, ih]
    rfl

theorem flattenTags_eq (t : NBTTag) :
    flattenTags t = t :: (childrenOf t).flatMap flattenTags := by
  obtain ⟨ty, n, b, s, iv, lg, fb, db, sv, ba, ia, la, lv, cv⟩ := t
  cases ty <;> (rw [flattenTags]) <;>
    simp [childrenOf, NBTTag.type, NBTTag.listVal, NBTTag.compoundVal,
      flattenList_eq_flatMap, flattenPairs_eq_flatMap]

theorem pathsList_eq_pathsAux (l : List NBTTag) : ∀ i, pathsList i l = pathsAux i l := by
  induction l with
  | nil => intro i; rw [pathsList, pathsAux]
  | cons x xs ih => intro i; rw [pathsList, pathsAux, ih]

theorem pathsPairs_eq_pathsAux (l : List (String × NBTTag)) :
    ∀ i, pathsPairs i l = pathsAux i (l.map Prod.snd) := by
  induction l with
  | nil => intro i; rw [pathsPairs]; rfl
  | cons x xs ih =>
    obtain ⟨k, v⟩ := x
    intro i
    rw [pathsPairs, ih]
    rfl

theorem preorderPaths_eq (t : NBTTag) :
    preorderPaths t = [] :: pathsAux 0 (childrenOf t) := by
  obtain ⟨ty, n, b, s, iv, lg, fb, db, sv, ba, ia, la, lv, cv⟩ := t
  cases ty <;> (rw [preorderPaths]) <;>
    simp [childrenOf, NBTTag.type, NBTTag.listVal, NBTTag.compoundVal,
      pathsList_eq_pathsAux, pathsPairs_eq_pathsAux, pathsAux]

theorem pathsAux_append (l1 l2 : List NBTTag) :
    ∀ i, pathsAux i (l1 ++ l2) = pathsAux i l1 ++ pathsAux (i + l1.length) l2 := by
  induction l1 with
  | nil => intro i; simp [pathsAux]
  | cons c cs ih =>
    intro i
    have harith : i + 1 + cs.length = i + (cs.length + 1) := by omega
    rw [List.cons_append, pathsAux, pathsAux, ih (i + 1), List.append_assoc,
      List.length_cons, harith]

theorem mem_pathsAux_shape (l : List NBTTag) :
    ∀ i x, x ∈ pathsAux i l → ∃ j q, x = j :: q ∧ i ≤ j ∧ j < i + l.length := by
  induction l with
  | nil => intro i x hx; rw [pathsAux] at hx; exact absurd hx (List.not_mem_nil x)
  | cons c cs ih =>
    intro i x hx
    rw [pathsAux] at hx
    rcases List.mem_append.mp hx with hx1 | hx2
    · obtain ⟨q, _, rfl⟩ := List.mem_map.mp hx1
      exact ⟨i, q, rfl, Nat.le_refl i, by simp only [List.length_cons]; omega⟩
    · obtain ⟨j, q, rfl, hj1, hj2⟩ := ih (i + 1) x hx2
      exact ⟨j, q, rfl, by omega, by simp only [List.length_cons]; omega⟩

/-! List surgery around a known index. -/

theorem getElem?_split {α : Type} (L : List α) : ∀ (i : Nat) (c : α), L[i]? = some c →
    L = L.take i ++ c :: L.drop (i + 1) ∧ (L.take i).length = i := by
  induction L with
  | nil => intro i c h; simp at h
  | cons x xs ih =>
    intro i c h
    cases i with
    | zero =>
      simp at h
      subst h
      simp
    | succ n =>
      simp at h
      obtain ⟨h1, h2⟩ := ih n c h
      have hn : n < xs.length := (List.getElem?_eq_some_iff.mp h).1
      constructor
      · calc x :: xs = x :: (xs.take n ++ c :: xs.drop (n + 1)) := by rw [← h1]
          _ = (x :: xs).take (n + 1) ++ c :: (x :: xs).drop (n + 2) := by simp
      · simp only [List.length_take, List.length_cons]
        omega

theorem set_split {α : Type} (L : List α) : ∀ (i : Nat) (c c' : α), L[i]? = some c →
    L.set i c' = L.take i ++ c' :: L.drop (i + 1) := by
  induction L with
  | nil => intro i c c' h; simp at h
  | cons x xs ih =>
    intro i c c' h
    cases i with
    | zero => simp
    | succ n =>
      simp at h
      simp [List.set, ih n c c' h]

theorem setChildPairs_map_snd (cv : List (String × NBTTag)) :
    ∀ (i : Nat) (c' : NBTTag),
      (setChildPairs cv i c').map Prod.snd = (cv.map Prod.snd).set i c' := by
  induction cv with
  | nil => intro i c'; rw [setChildPairs]; rfl
  | cons kv rest ih =>
    intro i c'
    obtain ⟨k, v⟩ := kv
    cases i with
    | zero => rw [setChildPairs]; rfl
    | succ n => rw [setChildPairs]; simp [ih n c']

/-! `modifyNode` and the shape of the tree. -/

theorem childrenOf_modifyNode (t c : NBTTag) (i : Nat) (p : List Nat) (f : NBTTag → NBTTag)
    (h : (childrenOf t)[i]? = some c) :
    childrenOf (modifyNode t (i :: p) f) = (childrenOf t).set i (modifyNode c p f) := by
  obtain ⟨ty, n, b, s, iv, lg, fb, db, sv, ba, ia, la, lv, cv⟩ := t
  cases ty <;>
    simp only [childrenOf, NBTTag.type, NBTTag.listVal, NBTTag.compoundVal] at h ⊢
  case COMPOUND =>
    rw [List.getElem?_map] at h
    cases hcv : cv[i]? with
    | none => rw [hcv] at h; simp at h
    | some kv =>
      obtain ⟨k, v⟩ := kv
      rw [hcv] at h
      simp at h
      subst h
      rw [modifyNode]
      simp only [hcv, NBTTag.compoundVal]
      exact setChildPairs_map_snd cv i _
  case LIST =>
    cases hlv : lv[i]? with
    | none => rw [hlv] at h; simp at h
    | some c0 =>
      rw [hlv] at h
      simp at h
      subst h
      rw [modifyNode]
      simp only [hlv, NBTTag.listVal]
  all_goals simp at h

theorem pathsAux_split (L : List NBTTag) (i : Nat) (c : NBTTag) (h : L[i]? = some c) :
    pathsAux 0 L =
      pathsAux 0 (L.take i) ++
        ((preorderPaths c).map (fun q => i :: q) ++ pathsAux (i + 1) (L.drop (i + 1))) := by
  obtain ⟨hs, ht⟩ := getElem?_split L i c h
  conv_lhs => rw [hs]
  rw [pathsAux_append, Nat.zero_add, ht, pathsAux]

theorem pathsAux_split_set (L : List NBTTag) (i : Nat) (c c' : NBTTag) (h : L[i]? = some c) :
    pathsAux 0 (L.set i c') =
      pathsAux 0 (L.take i) ++
        ((preorderPaths c').map (fun q => i :: q) ++ pathsAux (i + 1) (L.drop (i + 1))) := by
  obtain ⟨hs, ht⟩ := getElem?_split L i c h
  rw [set_split L i c c' h, pathsAux_append, Nat.zero_add, ht, pathsAux]

/-- Pre-order decomposition: a node reachable at path `p` occupies one
definite position in the projection; everything before that position is
untouched by a mutation at `p`. -/
theorem preorder_decomp :
    ∀ (p : List Nat) (t x : NBTTag), getNode t p = some x →
      ∃ A B, preorderPaths t = A ++ p :: B ∧ p ∉ A ∧ p ∉ B ∧
        ∀ f : NBTTag → NBTTag,
          ∃ B2, preorderPaths (modifyNode t p f) = A ++ p :: B2 := by
  intro p
  induction p with
  | nil =>
    intro t x h
    refine ⟨[], pathsAux 0 (childrenOf t), by rw [preorderPaths_eq]; rfl, by simp, ?_, ?_⟩
    · intro hmem
      obtain ⟨j, q, hshape, _, _⟩ := mem_pathsAux_shape _ _ _ hmem
      exact List.noConfusion hshape
    · intro f
      exact ⟨pathsAux 0 (childrenOf (f t)), by rw [modifyNode, preorderPaths_eq]; rfl⟩
  | cons i p ih =>
    intro t x h
    rw [getNode] at h
    cases hc : (childrenOf t)[i]? with
    | none => rw [hc] at h; simp at h
    | some c =>
      rw [hc] at h
      simp only at h
      obtain ⟨A1, B1, hc1, hnA1, hnB1, hmod1⟩ := ih c x h
      refine ⟨[] :: (pathsAux 0 ((childrenOf t).take i) ++ A1.map (fun q => i :: q)),
              B1.map (fun q => i :: q) ++ pathsAux (i + 1) ((childrenOf t).drop (i + 1)),
              ?_, ?_, ?_, ?_⟩
      · rw [preorderPaths_eq, pathsAux_split (childrenOf t) i c hc, hc1]
        simp [List.append_assoc]
      · intro hmem
        simp only [List.mem_cons, List.mem_append] at hmem
        rcases hmem with h1 | h2 | h3
        · exact List.noConfusion h1
        · obtain ⟨j, q, hshape, hj1, hj2⟩ := mem_pathsAux_shape _ _ _ h2
          have hjlen : ((childrenOf t).take i).length ≤ i := by
            simp [List.length_take]
          cases hshape
          omega
        · obtain ⟨q, hq, hiq⟩ := List.mem_map.mp h3
          have h4 : q = p := by injection hiq
          subst h4
          exact hnA1 hq
      · intro hmem
        simp only [List.mem_append] at hmem
        rcases hmem with h1 | h2
        · obtain ⟨q, hq, hiq⟩ := List.mem_map.mp h1
          have h4 : q = p := by injection hiq
          subst h4
          exact hnB1 hq
        · obtain ⟨j, q, hshape, hj1, hj2⟩ := mem_pathsAux_shape _ _ _ h2
          cases hshape
          omega
      · intro f
        obtain ⟨B2', hB2'⟩ := hmod1 f
        refine ⟨B2'.map (fun q => i :: q) ++ pathsAux (i + 1) ((childrenOf t).drop (i + 1)),
                ?_⟩
        rw [preorderPaths_eq, childrenOf_modifyNode t c i p f hc,
          pathsAux_split_set (childrenOf t) i c _ hc, hB2']
        simp [List.append_assoc]

/-- The selected row is exactly the position the decomposition names. -/
theorem getElem?_eq_length_of_split {α : Type} {A B : List α} {p : α} {n : Nat}
    (h : (A ++ p :: B)[n]? = some p) (hA : p ∉ A) (hB : p ∉ B) : n = A.length := by
  rcases Nat.lt_trichotomy n A.length with h1 | h1 | h1
  · rw [List.getElem?_append_left h1] at h
    exact absurd (List.getElem?_mem h) hA
  · exact h1
  · rw [List.getElem?_append_right (Nat.le_of_lt h1)] at h
    have h2 : 1 ≤ n - A.length := by omega
    rcases hd : n - A.length with _ | m
    · omega
    · rw [hd] at h
      simp only [List.getElem?_cons_succ] at h
      exact absurd (List.getElem?_mem h) hB

/-- After mutating the selected node, the selected row is still inside the
re-computed projection. -/
theorem row_lt_length_modify (t x : NBTTag) (row : Nat) (p : List Nat) (f : NBTTag → NBTTag)
    (hsel : (preorderPaths t)[row]? = some p) (hget : getNode t p = some x) :
    row < (preorderPaths (modifyNode t p f)).length := by
  obtain ⟨A, B, hdec, hnA, hnB, hmod⟩ := preorder_decomp p t x hget
  obtain ⟨B2, hB2⟩ := hmod f
  rw [hdec] at hsel
  have hrow : row = A.length := getElem?_eq_length_of_split hsel hnA hnB
  rw [hB2]
  simp only [List.length_append, List.length_cons]
  omega

/-!
`NBTFile::readInt`/`writeInt` (lines 229-236, 281-287) and
`readLong`/`writeLong` (238-249, 289-299).  A file read deposits the raw
bytes into a host integer; we carry that register content as its
unsigned bit pattern (`Nat < 2^32` / `2^64`).  Each masked-shift term of
the C++ expression moves one byte, e.g. `(value & 0xFF) << 24` is
`(u % 2^8) * 2^24` and `(value & 0xFF000000) >> 24` is `u / 2^24 % 2^8`;
`|` of the disjoint byte fields is `+`.  The signed left-shift
overflow and the final unsigned-to-`int32_t` conversion follow the
two's-complement wraparound gcc/clang implement.
-/

def bswap32 (u : Nat) : Nat :=
  (u % 2 ^ 8) * 2 ^ 24 + (u / 2 ^ 8 % 2 ^ 8) * 2 ^ 16 +
    (u / 2 ^ 16 % 2 ^ 8) * 2 ^ 8 + u / 2 ^ 24 % 2 ^ 8

def bswap64 (u : Nat) : Nat :=
  (u % 2 ^ 8) * 2 ^ 56 + (u / 2 ^ 8 % 2 ^ 8) * 2 ^ 48 +
    (u / 2 ^ 16 % 2 ^ 8) * 2 ^ 40 + (u / 2 ^ 24 % 2 ^ 8) * 2 ^ 32 +
    (u / 2 ^ 32 % 2 ^ 8) * 2 ^ 24 + (u / 2 ^ 40 % 2 ^ 8) * 2 ^ 16 +
    (u / 2 ^ 48 % 2 ^ 8) * 2 ^ 8 + u / 2 ^ 56 % 2 ^ 8

/-- Two's-complement bit pattern a signed 32-bit value leaves in memory. -/
def toPat32 (v : Int) : Nat := (v % 2 ^ 32).toNat

/-- The signed value of a 32-bit pattern. -/
def toVal32 (u : Nat) : Int := if u < 2 ^ 31 then (u : Int) else (u : Int) - 2 ^ 32

def toPat64 (v : Int) : Nat := (v % 2 ^ 64).toNat

def toVal64 (u : Nat) : Int := if u < 2 ^ 63 then (u : Int) else (u : Int) - 2 ^ 64

/-- `NBTFile::readInt`: byte-swap the pattern read from the file, return it
as a signed `int32_t`. -/
def NBTFile.readInt (u : Nat) : Int := toVal32 (bswap32 u)

/-- `NBTFile::writeInt`: byte-swap the value's pattern and write those
bytes to the file. -/
def NBTFile.writeInt (v : Int) : Nat := bswap32 (toPat32 v)

def NBTFile.readLong (u : Nat) : Int := toVal64 (bswap64 u)

def NBTFile.writeLong (v : Int) : Nat := bswap64 (toPat64 v)

/-- The integer-valued tag kinds of claim C5. -/
def isIntKind : TagType → Bool
  | .BYTE | .SHORT | .INT | .LONG => true
  | _ => false

/-- The integer parse `setValueFromString` performs for each integer kind
(`std::stoi` for Byte/Short/Int, `std::stoll` for Long). -/
def intParseOf : TagType → String → Option Int
  | .BYTE, s => stoi s
  | .SHORT, s => stoi s
  | .INT, s => stoi s
  | .LONG, s => stoll s
  | _, _ => none

/-- Two's-complement truncation of a parsed integer to the bit width of
the kind, as the spec's "range truncation to the kind's bit width". -/
def truncToWidth : TagType → Int → Int
  | .BYTE, v => (v + 2 ^ 7) % 2 ^ 8 - 2 ^ 7
  | .SHORT, v => (v + 2 ^ 15) % 2 ^ 16 - 2 ^ 15
  | .INT, v => (v + 2 ^ 31) % 2 ^ 32 - 2 ^ 31
  | .LONG, v => (v + 2 ^ 63) % 2 ^ 64 - 2 ^ 63
  | _, v => v

/-- Store an integer into the payload field selected by the tag's kind. -/
def writeIntValue (t : NBTTag) (v : Int) : NBTTag :=
  match t.type with
  | .BYTE => t.withByteVal v
  | .SHORT => t.withShortVal v
  | .INT => t.withIntVal v
  | .LONG => t.withLongVal v
  | _ => t

/-- Keys strictly ascending in `std::less` order: the invariant `std::map`
keeps its entries in. -/
def keysSorted : List (String × NBTTag) → Bool
  | [] => true
  | [_] => true
  | x :: y :: r => strLt x.1 y.1 && keysSorted (y :: r)

mutual
/-- Claim C10's invariant: every entry of every `compoundVal` collection
in the tree stores its child under a key equal to the child's own `name`
field. -/
def keyMatchesName : NBTTag → Bool
  | .mk ty _ _ _ _ _ _ _ _ _ _ _ lv cv =>
    match ty with
    | .COMPOUND => kmnPairs cv
    | .LIST => kmnList lv
    | _ => true

def kmnList : List NBTTag → Bool
  | [] => true
  | x :: xs => keyMatchesName x && kmnList xs

def kmnPairs : List (String × NBTTag) → Bool
  | [] => true
  | (k, v) :: xs => (k == v.name) && keyMatchesName v && kmnPairs xs
end

/-- Editor states reachable from the loaded file without ever pressing
delete (claim C10, amended: the delete command is the one operation that
breaks the key/name agreement). -/
inductive ReachNoDelete : EditorState → Prop where
  | init : ReachNoDelete initState
  | step (st : EditorState) (pf pd : String → Option Int) (k : Key) (input : String) :
      ReachNoDelete st → k ≠ Key.keyD → ReachNoDelete ((handleInput pf pd k input st).1)

/-! Concrete fixtures the counterexamples and witnesses run on. -/

/-- A valid TagTree different from the load() fixture: an empty root Compound. -/
def emptyRootTag : NBTTag := newTag .COMPOUND ""

def tagA : NBTTag := (newTag .BYTE "a").withByteVal 1

def tagB : NBTTag := (newTag .BYTE "b").withByteVal 2

/-- Compound built by inserting `"b"` first, then `"a"`. -/
def c2Root : NBTTag :=
  (newTag .COMPOUND "c").withCompoundVal (mapInsert "a" tagA (mapInsert "b" tagB []))

/-- Compound with children `"a"`, `"b"` (spec §8's structural-delete example). -/
def abRoot : NBTTag :=
  (newTag .COMPOUND "r").withCompoundVal (mapInsert "b" tagB (mapInsert "a" tagA []))

/-- `abRoot` with the child `"a"` selected (projection: root, a, b). -/
def abState : EditorState := { root := abRoot, currentRow := 1, modified := false }

def byteFiveTag : NBTTag := (newTag .BYTE "n").withByteVal 5

def byteEditRoot : NBTTag :=
  (newTag .COMPOUND "r").withCompoundVal (mapInsert "n" byteFiveTag [])

/-- A Byte node with value 5 selected (spec §8's edit-commit example). -/
def byteEditState : EditorState := { root := byteEditRoot, currentRow := 1, modified := false }

def existingNewTag : NBTTag := (newTag .STRING "new_tag").withStringVal "custom"

def ntRoot : NBTTag :=
  (newTag .COMPOUND "r").withCompoundVal (mapInsert "new_tag" existingNewTag [])

/-- A Compound already containing a child named `"new_tag"`, selected. -/
def ntState : EditorState := { root := ntRoot, currentRow := 0, modified := false }

/-- A float parser instance for witnesses (the theorems hold for every
`stof`/`stod` model; witnesses pick one). -/
def noFloatParse : String → Option Int := fun _ => none

/-! Claim evidence: concrete evaluations. -/

/-- C1: the round-trip law `decode(encode(t)) == t` cannot hold of the
code: `NBTFile::save` writes no bytes at all (it only returns true), and
`NBTFile::load` never reads any — it installs the constant fixture tree,
so a round trip starting from the valid tree `emptyRootTag` yields the
fixture, not `emptyRootTag`. -/
theorem C1_codec_is_stubbed :
    (∀ t : NBTTag, NBTFile.save t = true) ∧ NBTFile.loadTree ≠ emptyRootTag := by
  refine ⟨fun _ => rfl, ?_⟩
  intro h
  exact absurd (congrArg (fun t => t.compoundVal.length) h) (by decide)

/-- C2, counterexample: inserting `"b"` then `"a"` into a Compound and
flattening visits `"a"` before `"b"` — the `std::map` iterates in sorted
key order, so the claimed insertion-order traversal (root, b, a) is not
what the code produces. -/
theorem C2_insertion_order_cex :
    c2Root.compoundVal = mapInsert "a" tagA (mapInsert "b" tagB []) ∧
    (flattenTags c2Root).map NBTTag.name = ["c", "a", "b"] ∧
    ["c", "a", "b"] ≠ ["c", "b", "a"] :=
  ⟨rfl, by decide, by decide⟩

/-- C3: on a Compound `{a, b}` with `"a"` selected, `deleteTag` does not
remove the child: both keys are still stored, the entry for `"a"` now
holds a tag renamed to `"[DELETED] a"`, and the parent still has two
children — the rename/tombstone the claim (and spec §4.4) forbids. -/
theorem C3_delete_is_rename_not_removal :
    (deleteTag abState).1.root.compoundVal.map Prod.fst = ["a", "b"] ∧
    ((mapFind "a" (deleteTag abState).1.root.compoundVal).map NBTTag.name =
      some ("[DELETED] " ++ "a")) ∧
    (deleteTag abState).1.root.compoundVal.length = 2 ∧
    (deleteTag abState).1.modified = true := by
  refine ⟨by decide, by decide, by decide, by decide⟩

/-- C4, counterexample: committing `"not-a-number"` on a selected Byte
node leaves the state untouched but reports nothing — the `catch` block
is empty, so the claimed `InvalidValueFormat` report never happens. -/
theorem C4_no_error_reported_cex :
    (editValue noFloatParse noFloatParse byteEditState "not-a-number").2 ≠
      some EditError.invalidValueFormat ∧
    (editValue noFloatParse noFloatParse byteEditState "not-a-number").1 = byteEditState :=
  ⟨by decide, rfl⟩

/-- C6: `addTag` on a Compound that already has a `"new_tag"` child
silently overwrites it: the child count stays 1 (no strict increase, no
disambiguated name) and the existing child's value `"custom"` is replaced
by the placeholder `"value"` — exactly what the claim forbids. -/
theorem C6_addTag_overwrites_existing :
    (addTag ntState).1.root.compoundVal.length = ntState.root.compoundVal.length ∧
    (addTag ntState).1.root.compoundVal.map Prod.fst = ["new_tag"] ∧
    ((mapFind "new_tag" (addTag ntState).1.root.compoundVal).map NBTTag.stringVal =
      some "value") ∧
    (mapFind "new_tag" ntState.root.compoundVal).map NBTTag.stringVal = some "custom" := by
  refine ⟨by decide, by decide, by decide, by decide⟩

/-- C8, counterexample: `deleteTag` with the root selected reports no
`InvalidOperation` error (it reports nothing and changes nothing) — the
"rejected with an InvalidOperation error" half of the claim fails. -/
theorem C8_no_error_on_root_delete_cex :
    (deleteTag initState).2 ≠ some EditError.invalidOperation ∧
    (deleteTag initState).1 = initState :=
  ⟨by decide, rfl⟩

theorem stoi_range {s : String} {v : Int} (h : stoi s = some v) :
    -(2 ^ 31) ≤ v ∧ v < 2 ^ 31 := by
  rw [stoi] at h
  cases hw : scanInteger s with
  | none => rw [hw] at h; simp at h
  | some w =>
    rw [hw] at h
    have h2 : (if -(2 ^ 31) ≤ w ∧ w < 2 ^ 31 then some w else none) = some v := h
    by_cases hr : -(2 ^ 31) ≤ w ∧ w < 2 ^ 31
    · rw [if_pos hr] at h2
      have h3 : w = v := by injection h2
      subst h3
      exact hr
    · rw [if_neg hr] at h2
      simp at h2

theorem stoll_range {s : String} {v : Int} (h : stoll s = some v) :
    -(2 ^ 63) ≤ v ∧ v < 2 ^ 63 := by
  rw [stoll] at h
  cases hw : scanInteger s with
  | none => rw [hw] at h; simp at h
  | some w =>
    rw [hw] at h
    have h2 : (if -(2 ^ 63) ≤ w ∧ w < 2 ^ 63 then some w else none) = some v := h
    by_cases hr : -(2 ^ 63) ≤ w ∧ w < 2 ^ 63
    · rw [if_pos hr] at h2
      have h3 : w = v := by injection h2
      subst h3
      exact hr
    · rw [if_neg hr] at h2
      simp at h2

/-- On an integer-kind tag, a successful parse makes `setValueFromString`
store the parsed value truncated to the kind's bit width. -/
theorem setValueFromString_int (pf pd : String → Option Int) (tag : NBTTag) (text : String)
    (v : Int) (hk : isIntKind tag.type = true) (hparse : intParseOf tag.type text = some v) :
    setValueFromString pf pd tag text = some (writeIntValue tag (truncToWidth tag.type v)) ∧
    scalarEditable tag.type = true := by
  cases hty : tag.type <;> rw [hty] at hk hparse <;> simp only [isIntKind] at hk <;>
    try exact absurd hk (by decide)
  case BYTE =>
    simp only [intParseOf] at hparse
    refine ⟨?_, by rfl⟩
    simp only [setValueFromString, writeIntValue, truncToWidth, toInt8, hty, hparse]
    rfl
  case SHORT =>
    simp only [intParseOf] at hparse
    refine ⟨?_, by rfl⟩
    simp only [setValueFromString, writeIntValue, truncToWidth, toInt16, hty, hparse]
    rfl
  case INT =>
    simp only [intParseOf] at hparse
    obtain ⟨hr1, hr2⟩ := stoi_range hparse
    have hid : (v + 2 ^ 31) % 2 ^ 32 - 2 ^ 31 = v := by omega
    refine ⟨?_, by rfl⟩
    simp only [setValueFromString, writeIntValue, truncToWidth, hty, hparse, hid]
    rfl
  case LONG =>
    simp only [intParseOf] at hparse
    obtain ⟨hr1, hr2⟩ := stoll_range hparse
    have hid : (v + 2 ^ 63) % 2 ^ 64 - 2 ^ 63 = v := by omega
    refine ⟨?_, by rfl⟩
    simp only [setValueFromString, writeIntValue, truncToWidth, hty, hparse, hid]
    rfl

/-- C5: on a selected integer-kind node (Byte/Short/Int/Long), a
successful `CommitEdit` parses the text as an integer, truncates it to
the kind's bit width, replaces the node's value in place, and sets the
dirty flag; nothing else changes and no error is reported. -/
theorem C5_int_edit_truncates_and_dirties (pf pd : String → Option Int) (st : EditorState)
    (p : List Nat) (tag : NBTTag) (text : String) (v : Int)
    (hsp : selectedPath st = some p) (hg : getNode st.root p = some tag)
    (hk : isIntKind tag.type = true) (hparse : intParseOf tag.type text = some v) :
    editValue pf pd st text =
      ({ st with
          root := modifyNode st.root p (fun _ => writeIntValue tag (truncToWidth tag.type v)),
          modified := true }, none) := by
  obtain ⟨hsv, hsc⟩ := setValueFromString_int pf pd tag text v hk hparse
  simp [editValue, hsp, hg, hsc, hsv]

/-- C5 witness: the spec §8 example — a Byte node with value 5,
`CommitEdit("7")` stores 7 and sets the dirty flag. -/
theorem C5_int_edit_witness :
    intParseOf byteFiveTag.type "7" = some 7 ∧
    editValue noFloatParse noFloatParse byteEditState "7" =
      ({ byteEditState with
          root := modifyNode byteEditState.root [0]
            (fun _ => writeIntValue byteFiveTag (truncToWidth byteFiveTag.type 7)),
          modified := true }, none) ∧
    (editValue noFloatParse noFloatParse byteEditState "7").1.root.compoundVal.map
      (fun kv => kv.2.byteVal) = [7] ∧
    (editValue noFloatParse noFloatParse byteEditState "7").1.modified = true :=
  ⟨by decide,
   C5_int_edit_truncates_and_dirties noFloatParse noFloatParse byteEditState [0] byteFiveTag
     "7" 7 rfl rfl rfl (by decide),
   by decide, by decide⟩

/-- C4, amended: for every selected scalar or String node and every text
that does not parse as the node's kind, `CommitEdit` discards the edit
and returns to browsing with the node, the tree, and the dirty flag all
unchanged — but no error is reported: the parse failure is swallowed by
an empty catch block. -/
theorem C4_failed_parse_is_silent_noop (pf pd : String → Option Int) (st : EditorState)
    (p : List Nat) (tag : NBTTag) (text : String)
    (hsp : selectedPath st = some p) (hg : getNode st.root p = some tag)
    (hsc : scalarEditable tag.type = true)
    (hparse : setValueFromString pf pd tag text = none) :
    editValue pf pd st text = (st, none) := by
  simp [editValue, hsp, hg, hsc, hparse]

theorem C4_failed_parse_witness :
    selectedPath byteEditState = some [0] ∧
    getNode byteEditState.root [0] = some byteFiveTag ∧
    scalarEditable byteFiveTag.type = true ∧
    setValueFromString noFloatParse noFloatParse byteFiveTag "not-a-number" = none ∧
    editValue noFloatParse noFloatParse byteEditState "not-a-number" = (byteEditState, none) :=
  ⟨rfl, rfl, rfl, rfl,
   C4_failed_parse_is_silent_noop noFloatParse noFloatParse byteEditState [0] byteFiveTag
     "not-a-number" rfl rfl rfl rfl⟩

/-- C8, amended: `DeleteSelected()` with the root selected is silently
ignored: the tree, the dirty flag, and the selection are exactly as
before, and no error is reported. -/
theorem C8_root_delete_silent_noop (st : EditorState) (h : st.currentRow = 0) :
    deleteTag st = (st, none) := by
  have hsp : selectedPath st = some [] := by
    rw [selectedPath, if_neg (by omega), h]
    rw [preorderPaths_eq]
    exact List.getElem?_cons_zero
  simp [deleteTag, hsp]

theorem C8_root_delete_witness :
    initState.currentRow = 0 ∧ deleteTag initState = (initState, none) :=
  ⟨rfl, C8_root_delete_silent_noop initState rfl⟩

/-! Byte-swap round trip (claim C9). -/

theorem bswap32_bytes (b0 b1 b2 b3 : Nat) (h0 : b0 < 2 ^ 8) (h1 : b1 < 2 ^ 8)
    (h2 : b2 < 2 ^ 8) (h3 : b3 < 2 ^ 8) :
    bswap32 (b0 + 2 ^ 8 * b1 + 2 ^ 16 * b2 + 2 ^ 24 * b3) =
      b3 + 2 ^ 8 * b2 + 2 ^ 16 * b1 + 2 ^ 24 * b0 := by
  simp only [bswap32]
  omega

theorem bswap32_invol (u : Nat) (h : u < 2 ^ 32) : bswap32 (bswap32 u) = u := by
  obtain ⟨b0, b1, b2, b3, hb0, hb1, hb2, hb3, hu⟩ :
      ∃ b0 b1 b2 b3, b0 < 2 ^ 8 ∧ b1 < 2 ^ 8 ∧ b2 < 2 ^ 8 ∧ b3 < 2 ^ 8 ∧
        u = b0 + 2 ^ 8 * b1 + 2 ^ 16 * b2 + 2 ^ 24 * b3 := by
    refine ⟨u % 2 ^ 8, u / 2 ^ 8 % 2 ^ 8, u / 2 ^ 16 % 2 ^ 8, u / 2 ^ 24,
      ?_, ?_, ?_, ?_, ?_⟩ <;> omega
  subst hu
  rw [bswap32_bytes b0 b1 b2 b3 hb0 hb1 hb2 hb3,
    bswap32_bytes b3 b2 b1 b0 hb3 hb2 hb1 hb0]

theorem bswap64_bytes (b0 b1 b2 b3 b4 b5 b6 b7 : Nat) (h0 : b0 < 2 ^ 8) (h1 : b1 < 2 ^ 8)
    (h2 : b2 < 2 ^ 8) (h3 : b3 < 2 ^ 8) (h4 : b4 < 2 ^ 8) (h5 : b5 < 2 ^ 8)
    (h6 : b6 < 2 ^ 8) (h7 : b7 < 2 ^ 8) :
    bswap64 (b0 + 2 ^ 8 * b1 + 2 ^ 16 * b2 + 2 ^ 24 * b3 + 2 ^ 32 * b4 + 2 ^ 40 * b5 +
        2 ^ 48 * b6 + 2 ^ 56 * b7) =
      b7 + 2 ^ 8 * b6 + 2 ^ 16 * b5 + 2 ^ 24 * b4 + 2 ^ 32 * b3 + 2 ^ 40 * b2 +
        2 ^ 48 * b1 + 2 ^ 56 * b0 := by
  simp only [bswap64]
  omega

theorem bswap64_invol (u : Nat) (h : u < 2 ^ 64) : bswap64 (bswap64 u) = u := by
  obtain ⟨b0, b1, b2, b3, b4, b5, b6, b7, hb, hu⟩ :
      ∃ b0 b1 b2 b3 b4 b5 b6 b7,
        (b0 < 2 ^ 8 ∧ b1 < 2 ^ 8 ∧ b2 < 2 ^ 8 ∧ b3 < 2 ^ 8 ∧
          b4 < 2 ^ 8 ∧ b5 < 2 ^ 8 ∧ b6 < 2 ^ 8 ∧ b7 < 2 ^ 8) ∧
        u = b0 + 2 ^ 8 * b1 + 2 ^ 16 * b2 + 2 ^ 24 * b3 + 2 ^ 32 * b4 + 2 ^ 40 * b5 +
            2 ^ 48 * b6 + 2 ^ 56 * b7 := by
    refine ⟨u % 2 ^ 8, u / 2 ^ 8 % 2 ^ 8, u / 2 ^ 16 % 2 ^ 8, u / 2 ^ 24 % 2 ^ 8,
      u / 2 ^ 32 % 2 ^ 8, u / 2 ^ 40 % 2 ^ 8, u / 2 ^ 48 % 2 ^ 8, u / 2 ^ 56,
      ⟨?_, ?_, ?_, ?_, ?_, ?_, ?_, ?_⟩, ?_⟩ <;> omega
  obtain ⟨hb0, hb1, hb2, hb3, hb4, hb5, hb6, hb7⟩ := hb
  subst hu
  rw [bswap64_bytes b0 b1 b2 b3 b4 b5 b6 b7 hb0 hb1 hb2 hb3 hb4 hb5 hb6 hb7,
    bswap64_bytes b7 b6 b5 b4 b3 b2 b1 b0 hb7 hb6 hb5 hb4 hb3 hb2 hb1 hb0]

theorem toPat32_lt (v : Int) : toPat32 v < 2 ^ 32 := by
  simp only [toPat32]
  omega

theorem toPat64_lt (v : Int) : toPat64 v < 2 ^ 64 := by
  simp only [toPat64]
  omega

theorem toVal32_toPat32 (v : Int) (h1 : -(2 ^ 31) ≤ v) (h2 : v < 2 ^ 31) :
    toVal32 (toPat32 v) = v := by
  simp only [toVal32, toPat32]
  split <;> omega

theorem toVal64_toPat64 (v : Int) (h1 : -(2 ^ 63) ≤ v) (h2 : v < 2 ^ 63) :
    toVal64 (toPat64 v) = v := by
  simp only [toVal64, toPat64]
  split <;> omega

/-- C9: `writeInt` followed by `readInt` is the identity on every signed
32-bit value, and `writeLong` followed by `readLong` on every signed
64-bit value: the byte swap each writer performs is inverted by the
matching reader, including for negative values. -/
theorem C9_read_write_roundtrip :
    (∀ v : Int, -(2 ^ 31) ≤ v → v < 2 ^ 31 →
      NBTFile.readInt (NBTFile.writeInt v) = v) ∧
    (∀ v : Int, -(2 ^ 63) ≤ v → v < 2 ^ 63 →
      NBTFile.readLong (NBTFile.writeLong v) = v) := by
  constructor
  · intro v h1 h2
    rw [NBTFile.readInt, NBTFile.writeInt, bswap32_invol _ (toPat32_lt v),
      toVal32_toPat32 v h1 h2]
  · intro v h1 h2
    rw [NBTFile.readLong, NBTFile.writeLong, bswap64_invol _ (toPat64_lt v),
      toVal64_toPat64 v h1 h2]

/-- C9 witness: negative values, whose high byte has the sign bit set. -/
theorem C9_roundtrip_witness :
    (-(2 ^ 31) ≤ (-2 : Int) ∧ (-2 : Int) < 2 ^ 31 ∧
      NBTFile.readInt (NBTFile.writeInt (-2)) = -2) ∧
    (-(2 ^ 63) ≤ (-1 : Int) ∧ (-1 : Int) < 2 ^ 63 ∧
      NBTFile.readLong (NBTFile.writeLong (-1)) = -1) :=
  ⟨⟨by decide, by decide, C9_read_write_roundtrip.1 (-2) (by decide) (by decide)⟩,
   ⟨by decide, by decide, C9_read_write_roundtrip.2 (-1) (by decide) (by decide)⟩⟩

/-! Selection bounds (claim C7). -/

theorem bound_modify_at_selected (st : EditorState) (p : List Nat) (x : NBTTag)
    (f : NBTTag → NBTTag) (h0 : 0 ≤ st.currentRow)
    (hsp : selectedPath st = some p) (hg : getNode st.root p = some x) :
    st.currentRow < ((preorderPaths (modifyNode st.root p f)).length : Int) := by
  have hneg : ¬ st.currentRow < 0 := by omega
  rw [selectedPath, if_neg hneg] at hsp
  have hlt := row_lt_length_modify st.root x st.currentRow.toNat p f hsp hg
  omega

theorem editValue_bounds (pf pd : String → Option Int) (st : EditorState) (input : String)
    (h0 : 0 ≤ st.currentRow) (h1 : st.currentRow < projLen st) :
    ((editValue pf pd st input).1).currentRow = st.currentRow ∧
    ((editValue pf pd st input).1).currentRow <
      projLen ((editValue pf pd st input).1) := by
  cases hsp : selectedPath st with
  | none => simp only [editValue, hsp]; exact ⟨by trivial, h1⟩
  | some p =>
    cases hg : getNode st.root p with
    | none => simp only [editValue, hsp, hg]; exact ⟨by trivial, h1⟩
    | some tag =>
      by_cases hsc : scalarEditable tag.type = true
      · cases hsv : setValueFromString pf pd tag input with
        | none => simp only [editValue, hsp, hg, hsv, if_pos hsc]; exact ⟨by trivial, h1⟩
        | some tag' =>
          simp only [editValue, hsp, hg, hsv, if_pos hsc]
          exact ⟨by trivial, bound_modify_at_selected st p tag (fun _ => tag') h0 hsp hg⟩
      · simp only [editValue, hsp, hg, if_neg hsc]; exact ⟨by trivial, h1⟩

theorem addTag_bounds (st : EditorState)
    (h0 : 0 ≤ st.currentRow) (h1 : st.currentRow < projLen st) :
    ((addTag st).1).currentRow = st.currentRow ∧
    ((addTag st).1).currentRow < projLen ((addTag st).1) := by
  cases hsp : selectedPath st with
  | none => simp only [addTag, hsp]; exact ⟨by trivial, h1⟩
  | some p =>
    cases hg : getNode st.root p with
    | none => simp only [addTag, hsp, hg]; exact ⟨by trivial, h1⟩
    | some tag =>
      by_cases hty : tag.type = TagType.COMPOUND
      · simp only [addTag, hsp, hg, if_pos hty]
        exact ⟨by trivial, bound_modify_at_selected st p tag _ h0 hsp hg⟩
      · simp only [addTag, hsp, hg, if_neg hty]; exact ⟨by trivial, h1⟩

theorem deleteTag_bounds (st : EditorState)
    (h0 : 0 ≤ st.currentRow) (h1 : st.currentRow < projLen st) :
    ((deleteTag st).1).currentRow = st.currentRow ∧
    ((deleteTag st).1).currentRow < projLen ((deleteTag st).1) := by
  cases hsp : selectedPath st with
  | none => simp only [deleteTag, hsp]; exact ⟨by trivial, h1⟩
  | some p =>
    by_cases hp : p = []
    · simp only [deleteTag, hsp, if_pos hp]; exact ⟨by trivial, h1⟩
    · cases hg : getNode st.root p with
      | none => simp only [deleteTag, hsp, if_neg hp, hg]; exact ⟨by trivial, h1⟩
      | some x =>
        simp only [deleteTag, hsp, if_neg hp, hg]
        exact ⟨by trivial, bound_modify_at_selected st p x _ h0 hsp hg⟩

/-- C7: the selection index stays within `[0, projectionLength - 1]`
under every command; moving up at index 0 and moving down at the last
index both leave the selection unchanged. -/
theorem C7_selection_stays_in_bounds (pf pd : String → Option Int) (k : Key)
    (input : String) (st : EditorState)
    (h0 : 0 ≤ st.currentRow) (h1 : st.currentRow < projLen st) :
    (0 ≤ ((handleInput pf pd k input st).1).currentRow ∧
      ((handleInput pf pd k input st).1).currentRow <
        projLen ((handleInput pf pd k input st).1)) ∧
    (k = Key.up → st.currentRow = 0 →
      ((handleInput pf pd k input st).1).currentRow = 0) ∧
    (k = Key.down → st.currentRow = projLen st - 1 →
      ((handleInput pf pd k input st).1).currentRow = st.currentRow) := by
  cases k
  case up =>
    refine ⟨?_, ?_, fun h => Key.noConfusion h⟩
    · by_cases hr : st.currentRow > 0
      · simp only [handleInput, if_pos hr]
        constructor
        · show (0 : Int) ≤ st.currentRow - 1
          omega
        · show st.currentRow - 1 < projLen st
          omega
      · simp only [handleInput, if_neg hr]
        exact ⟨h0, h1⟩
    · intro _ hz
      have hr : ¬ st.currentRow > 0 := by omega
      simp only [handleInput, if_neg hr]
      exact hz
  case down =>
    refine ⟨?_, fun h => Key.noConfusion h, ?_⟩
    · by_cases hr : st.currentRow < projLen st - 1
      · simp only [handleInput, if_pos hr]
        constructor
        · show (0 : Int) ≤ st.currentRow + 1
          omega
        · show st.currentRow + 1 < projLen st
          omega
      · simp only [handleInput, if_neg hr]
        exact ⟨h0, h1⟩
    · intro _ hlast
      have hr : ¬ st.currentRow < projLen st - 1 := by omega
      simp only [handleInput, if_neg hr]
  case keyE =>
    obtain ⟨heq, hb⟩ := editValue_bounds pf pd st input h0 h1
    refine ⟨⟨?_, ?_⟩, fun h => Key.noConfusion h, fun h => Key.noConfusion h⟩
    · show 0 ≤ ((editValue pf pd st input).1).currentRow
      omega
    · exact hb
  case keyA =>
    obtain ⟨heq, hb⟩ := addTag_bounds st h0 h1
    refine ⟨⟨?_, ?_⟩, fun h => Key.noConfusion h, fun h => Key.noConfusion h⟩
    · show 0 ≤ ((addTag st).1).currentRow
      omega
    · exact hb
  case keyD =>
    obtain ⟨heq, hb⟩ := deleteTag_bounds st h0 h1
    refine ⟨⟨?_, ?_⟩, fun h => Key.noConfusion h, fun h => Key.noConfusion h⟩
    · show 0 ≤ ((deleteTag st).1).currentRow
      omega
    · exact hb
  case keyS =>
    refine ⟨⟨h0, h1⟩, fun h => Key.noConfusion h, fun h => Key.noConfusion h⟩
  case other =>
    exact ⟨⟨h0, h1⟩, fun h => Key.noConfusion h, fun h => Key.noConfusion h⟩

/-- C7 witness: the loaded editor, moving up at index 0. -/
theorem C7_selection_witness :
    0 ≤ initState.currentRow ∧ initState.currentRow < projLen initState ∧
    (handleInput noFloatParse noFloatParse Key.up "" initState).1.currentRow = 0 :=
  ⟨by decide, by decide,
   (C7_selection_stays_in_bounds noFloatParse noFloatParse Key.up "" initState
     (by decide) (by decide)).2.1 rfl rfl⟩

/-! Sorted-key order (claim C2, amended). -/

theorem uint32_eq_of_toNat {a b : UInt32} (h : a.toNat = b.toNat) : a = b := by
  cases a; cases b
  simp only [UInt32.toNat] at h
  congr 1
  exact BitVec.eq_of_toNat_eq h

theorem char_eq_of_toNat {a b : Char} (h : a.toNat = b.toNat) : a = b :=
  Char.ext (uint32_eq_of_toNat h)

theorem string_eq_of_data {a b : String} (h : a.data = b.data) : a = b := by
  cases a
  simp at h
  rw [h]

/-- `std::less` is a strict total order: two unequal strings compare in
one direction or the other. -/
theorem strLtB_total : ∀ as bs : List Char,
    strLtB as bs = false → as ≠ bs → strLtB bs as = true := by
  intro as
  induction as with
  | nil =>
    intro bs h hne
    cases bs with
    | nil => exact absurd rfl hne
    | cons b bs' => rw [strLtB] at h; exact absurd h (by simp)
  | cons a as' ih =>
    intro bs h hne
    cases bs with
    | nil => rw [strLtB]
    | cons b bs' =>
      rw [strLtB] at h
      by_cases h1 : a.toNat < b.toNat
      · rw [if_pos h1] at h; exact absurd h (by simp)
      · rw [if_neg h1] at h
        by_cases h2 : b.toNat < a.toNat
        · rw [strLtB, if_pos h2]
        · rw [if_neg h2] at h
          have hab : a = b := char_eq_of_toNat (by omega)
          subst hab
          rw [strLtB, if_neg h1, if_neg h2]
          exact ih bs' h (fun heq => hne (by rw [heq]))

theorem strLt_total (a b : String) (h : strLt a b = false) (hne : a ≠ b) :
    strLt b a = true :=
  strLtB_total a.data b.data h (fun hd => hne (string_eq_of_data hd))

theorem keysSorted_cons_cons (x y : String × NBTTag) (r : List (String × NBTTag)) :
    keysSorted (x :: y :: r) = (strLt x.1 y.1 && keysSorted (y :: r)) := by
  rw [keysSorted]

theorem keysSorted_tail {x : String × NBTTag} {l : List (String × NBTTag)}
    (h : keysSorted (x :: l) = true) : keysSorted l = true := by
  cases l with
  | nil => rfl
  | cons y r =>
    rw [keysSorted_cons_cons, Bool.and_eq_true] at h
    exact h.2

theorem mapInsert_shape (k : String) (v : NBTTag) (l : List (String × NBTTag)) :
    (∃ tail, mapInsert k v l = (k, v) :: tail) ∨
    (∃ k0 v0 rest, l = (k0, v0) :: rest ∧
      mapInsert k v l = (k0, v0) :: mapInsert k v rest) := by
  cases l with
  | nil => exact Or.inl ⟨[], rfl⟩
  | cons kv rest =>
    obtain ⟨k', v'⟩ := kv
    by_cases h1 : strLt k k' = true
    · exact Or.inl ⟨(k', v') :: rest, by rw [mapInsert, if_pos h1]⟩
    · by_cases h2 : k = k'
      · exact Or.inl ⟨rest, by rw [mapInsert, if_neg h1, if_pos h2]⟩
      · exact Or.inr ⟨k', v', rest, rfl, by rw [mapInsert, if_neg h1, if_neg h2]⟩

/-- `compoundVal[k] = v` keeps the map's keys strictly ascending: the
stored (iteration) order stays sorted under every write. -/
theorem keysSorted_mapInsert (k : String) (v : NBTTag) :
    ∀ l, keysSorted l = true → keysSorted (mapInsert k v l) = true := by
  intro l
  induction l with
  | nil => intro _; rfl
  | cons kv rest ih =>
    obtain ⟨k', v'⟩ := kv
    intro h
    by_cases h1 : strLt k k' = true
    · rw [mapInsert, if_pos h1, keysSorted_cons_cons]
      simp [h1, h]
    · by_cases h2 : k = k'
      · rw [mapInsert, if_neg h1, if_pos h2]
        subst h2
        cases rest with
        | nil => rfl
        | cons kv2 r2 =>
          obtain ⟨k2, v2⟩ := kv2
          rw [keysSorted_cons_cons] at h ⊢
          exact h
      · rw [mapInsert, if_neg h1, if_neg h2]
        have hrest := keysSorted_tail h
        have hins := ih hrest
        have hfalse : strLt k k' = false := by
          revert h1
          cases strLt k k' <;> simp
        rcases mapInsert_shape k v rest with ⟨tail, heq⟩ | ⟨k0, v0, rest2, hrest_eq, heq⟩
        · rw [heq]
          rw [heq] at hins
          rw [keysSorted_cons_cons]
          have hlt : strLt k' k = true := strLt_total k k' hfalse h2
          simp [hlt, hins]
        · rw [heq]
          rw [heq] at hins
          rw [keysSorted_cons_cons]
          rw [hrest_eq, keysSorted_cons_cons, Bool.and_eq_true] at h
          have hlt := h.1
          simp [hlt, hins]

/-- C2, amended: the flattener visits nodes in pre-order depth-first
order, the root first, each node followed by its children's subtrees in
the stored child order — for a Compound the entry order of its name-keyed
collection, for a List the list order.  The stored entry order of the map
is ascending lexicographic key order (empty at creation, preserved by
every `compoundVal[k] = v` write), not insertion order. -/
theorem C2_traversal_preorder_sorted :
    (∀ t : NBTTag, flattenTags t = t :: (childrenOf t).flatMap flattenTags) ∧
    (∀ t : NBTTag, t.type = TagType.COMPOUND → childrenOf t = t.compoundVal.map Prod.snd) ∧
    (∀ t : NBTTag, t.type = TagType.LIST → childrenOf t = t.listVal) ∧
    keysSorted [] = true ∧
    (∀ (k : String) (v : NBTTag) (l : List (String × NBTTag)),
      keysSorted l = true → keysSorted (mapInsert k v l) = true) := by
  refine ⟨flattenTags_eq, ?_, ?_, rfl, fun k v l h => keysSorted_mapInsert k v l h⟩
  · intro t h
    rw [childrenOf, h]
  · intro t h
    rw [childrenOf, h]

theorem C2_traversal_witness :
    flattenTags c2Root = c2Root :: (childrenOf c2Root).flatMap flattenTags ∧
    c2Root.type = TagType.COMPOUND ∧
    childrenOf c2Root = c2Root.compoundVal.map Prod.snd ∧
    keysSorted (mapInsert "a" tagA (mapInsert "b" tagB [])) = true :=
  ⟨C2_traversal_preorder_sorted.1 c2Root,
   rfl,
   C2_traversal_preorder_sorted.2.1 c2Root rfl,
   C2_traversal_preorder_sorted.2.2.2.2 "a" tagA (mapInsert "b" tagB []) (by decide)⟩

/-! Key/name agreement (claim C10). -/

theorem keyMatchesName_eq (t : NBTTag) :
    keyMatchesName t =
      (match t.type with
       | TagType.COMPOUND => kmnPairs t.compoundVal
       | TagType.LIST => kmnList t.listVal
       | _ => true) := by
  obtain ⟨ty, n, b, s, iv, lg, fb, db, sv, ba, ia, la, lv, cv⟩ := t
  cases ty <;> (rw [keyMatchesName]) <;>
    simp [NBTTag.type, NBTTag.listVal, NBTTag.compoundVal]

/-- `keyMatchesName` only reads the type and the child collections. -/
theorem keyMatchesName_congr (x y : NBTTag) (ht : y.type = x.type)
    (hl : y.listVal = x.listVal) (hc : y.compoundVal = x.compoundVal) :
    keyMatchesName y = keyMatchesName x := by
  rw [keyMatchesName_eq, keyMatchesName_eq, ht, hl, hc]

theorem kmnPairs_mem : ∀ (l : List (String × NBTTag)) (k : String) (c : NBTTag),
    kmnPairs l = true → (k, c) ∈ l → (k == c.name) = true ∧ keyMatchesName c = true := by
  intro l
  induction l with
  | nil => intro k c _ hm; exact absurd hm (List.not_mem_nil _)
  | cons kv rest ih =>
    obtain ⟨k', v'⟩ := kv
    intro k c h hm
    rw [kmnPairs, Bool.and_eq_true, Bool.and_eq_true] at h
    rcases List.mem_cons.mp hm with heq | hm2
    · obtain ⟨h1, h2⟩ := Prod.mk.injEq .. ▸ heq
      cases heq
      exact ⟨h.1.1, h.1.2⟩
    · exact ih k c h.2 hm2

theorem kmnList_mem : ∀ (l : List NBTTag) (c : NBTTag),
    kmnList l = true → c ∈ l → keyMatchesName c = true := by
  intro l
  induction l with
  | nil => intro c _ hm; exact absurd hm (List.not_mem_nil _)
  | cons x rest ih =>
    intro c h hm
    rw [kmnList, Bool.and_eq_true] at h
    rcases List.mem_cons.mp hm with heq | hm2
    · cases heq; exact h.1
    · exact ih c h.2 hm2

theorem kmnPairs_setChild : ∀ (cv : List (String × NBTTag)) (i : Nat) (k : String)
    (c c' : NBTTag), cv[i]? = some (k, c) → kmnPairs cv = true →
    (k == c'.name) = true → keyMatchesName c' = true →
    kmnPairs (setChildPairs cv i c') = true := by
  intro cv
  induction cv with
  | nil => intro i k c c' h _ _ _; simp at h
  | cons kv rest ih =>
    obtain ⟨k0, v0⟩ := kv
    intro i k c c' h hall hk hc'
    cases i with
    | zero =>
      simp at h
      obtain ⟨hk0, _⟩ := h
      subst hk0
      rw [setChildPairs, kmnPairs]
      rw [kmnPairs, Bool.and_eq_true, Bool.and_eq_true] at hall
      simp [hk, hc', hall.2]
    | succ m =>
      simp at h
      rw [setChildPairs, kmnPairs]
      rw [kmnPairs, Bool.and_eq_true, Bool.and_eq_true] at hall
      rw [Bool.and_eq_true, Bool.and_eq_true]
      exact ⟨⟨hall.1.1, hall.1.2⟩, ih m k c c' h hall.2 hk hc'⟩

theorem kmnList_set : ∀ (lv : List NBTTag) (i : Nat) (c c' : NBTTag),
    lv[i]? = some c → kmnList lv = true → keyMatchesName c' = true →
    kmnList (lv.set i c') = true := by
  intro lv
  induction lv with
  | nil => intro i c c' h _ _; simp at h
  | cons x rest ih =>
    intro i c c' h hall hc'
    rw [kmnList, Bool.and_eq_true] at hall
    cases i with
    | zero =>
      rw [List.set]
      rw [kmnList, Bool.and_eq_true]
      exact ⟨hc', hall.2⟩
    | succ m =>
      simp at h
      rw [List.set]
      rw [kmnList, Bool.and_eq_true]
      exact ⟨hall.1, ih m c c' h hall.2 hc'⟩

/-- Writing a key-matching, internally consistent entry into a compound
map keeps every entry key-matching. -/
theorem kmnPairs_mapInsert (k : String) (v : NBTTag) (hk : (k == v.name) = true)
    (hv : keyMatchesName v = true) :
    ∀ l, kmnPairs l = true → kmnPairs (mapInsert k v l) = true := by
  intro l
  induction l with
  | nil =>
    intro _
    rw [mapInsert, kmnPairs]
    simp [hk, hv, kmnPairs]
  | cons kv rest ih =>
    obtain ⟨k', v'⟩ := kv
    intro h
    rw [kmnPairs, Bool.and_eq_true, Bool.and_eq_true] at h
    by_cases h1 : strLt k k' = true
    · rw [mapInsert, if_pos h1, kmnPairs]
      rw [Bool.and_eq_true, Bool.and_eq_true]
      refine ⟨⟨hk, hv⟩, ?_⟩
      rw [kmnPairs, Bool.and_eq_true, Bool.and_eq_true]
      exact ⟨⟨h.1.1, h.1.2⟩, h.2⟩
    · by_cases h2 : k = k'
      · rw [mapInsert, if_neg h1, if_pos h2, kmnPairs]
        rw [Bool.and_eq_true, Bool.and_eq_true]
        exact ⟨⟨hk, hv⟩, h.2⟩
      · rw [mapInsert, if_neg h1, if_neg h2, kmnPairs]
        rw [Bool.and_eq_true, Bool.and_eq_true]
        exact ⟨⟨h.1.1, h.1.2⟩, ih h.2⟩

theorem modifyNode_cons_fields (t : NBTTag) (i : Nat) (p : List Nat) (f : NBTTag → NBTTag) :
    (modifyNode t (i :: p) f).name = t.name ∧ (modifyNode t (i :: p) f).type = t.type := by
  obtain ⟨ty, n, b, s, iv, lg, fb, db, sv, ba, ia, la, lv, cv⟩ := t
  cases ty
  case COMPOUND =>
    cases hcv : cv[i]? with
    | none => simp only [modifyNode, hcv]; exact ⟨by trivial, by trivial⟩
    | some kv =>
      obtain ⟨k, c⟩ := kv
      simp only [modifyNode, hcv]
      exact ⟨by trivial, by trivial⟩
  case LIST =>
    cases hlv : lv[i]? with
    | none => simp only [modifyNode, hlv]; exact ⟨by trivial, by trivial⟩
    | some c =>
      simp only [modifyNode, hlv]
      exact ⟨by trivial, by trivial⟩
  all_goals exact ⟨by trivial, by trivial⟩

theorem name_modifyNode : ∀ (p : List Nat) (t x : NBTTag) (f : NBTTag → NBTTag),
    getNode t p = some x → (f x).name = x.name → (modifyNode t p f).name = t.name := by
  intro p
  cases p with
  | nil =>
    intro t x f h hf
    rw [getNode] at h
    have hx : t = x := Option.some.inj h
    subst hx
    rw [modifyNode]
    exact hf
  | cons i q =>
    intro t x f _ _
    exact (modifyNode_cons_fields t i q f).1

/-- Mutating the node at a valid path with a name-preserving,
invariant-preserving function keeps every compound entry key-matching. -/
theorem kmn_modifyNode : ∀ (p : List Nat) (t x : NBTTag) (f : NBTTag → NBTTag),
    getNode t p = some x → keyMatchesName t = true →
    (f x).name = x.name → (keyMatchesName x = true → keyMatchesName (f x) = true) →
    keyMatchesName (modifyNode t p f) = true := by
  intro p
  induction p with
  | nil =>
    intro t x f h hk hf hkf
    rw [getNode] at h
    have hx : t = x := Option.some.inj h
    subst hx
    rw [modifyNode]
    exact hkf hk
  | cons i q ih =>
    intro t x f h hk hf hkf
    rw [getNode] at h
    cases hc : (childrenOf t)[i]? with
    | none => rw [hc] at h; simp at h
    | some c =>
      rw [hc] at h
      simp only at h
      obtain ⟨ty, n, b, s, iv, lg, fb, db, sv, ba, ia, la, lv, cv⟩ := t
      cases ty
      case COMPOUND =>
        have hc2 : (cv.map Prod.snd)[i]? = some c := hc
        rw [List.getElem?_map] at hc2
        cases hcv : cv[i]? with
        | none => rw [hcv] at hc2; simp at hc2
        | some kv =>
          obtain ⟨k, c0⟩ := kv
          rw [hcv] at hc2
          simp at hc2
          rw [hc2] at hcv
          have hkp : kmnPairs cv = true := hk
          have hmem : (k, c) ∈ cv := List.getElem?_mem hcv
          obtain ⟨hkname, hkmn_c⟩ := kmnPairs_mem cv k c hkp hmem
          have hkc' : keyMatchesName (modifyNode c q f) = true := ih c x f h hkmn_c hf hkf
          have hnamec' : (modifyNode c q f).name = c.name := name_modifyNode q c x f h hf
          rw [modifyNode]
          simp only [hcv]
          show kmnPairs (setChildPairs cv i (modifyNode c q f)) = true
          exact kmnPairs_setChild cv i k c _ hcv hkp (by rw [hnamec']; exact hkname) hkc'
      case LIST =>
        have hc2 : lv[i]? = some c := hc
        have hkl : kmnList lv = true := hk
        have hmem : c ∈ lv := List.getElem?_mem hc2
        have hkmn_c := kmnList_mem lv c hkl hmem
        have hkc' : keyMatchesName (modifyNode c q f) = true := ih c x f h hkmn_c hf hkf
        rw [modifyNode]
        simp only [hc2]
        show kmnList (lv.set i (modifyNode c q f)) = true
        exact kmnList_set lv i c _ hc2 hkl hkc'
      all_goals simp [childrenOf, NBTTag.type] at hc

/-- `setValueFromString` rewrites one payload field only: name, kind, and
both child collections survive. -/
theorem setValueFromString_preserves (pf pd : String → Option Int) (tag tag' : NBTTag)
    (txt : String) (h : setValueFromString pf pd tag txt = some tag') :
    tag'.name = tag.name ∧ tag'.type = tag.type ∧ tag'.listVal = tag.listVal ∧
      tag'.compoundVal = tag.compoundVal := by
  obtain ⟨ty, n, b, s, iv, lg, fb, db, sv, ba, ia, la, lv, cv⟩ := tag
  cases ty <;> simp only [setValueFromString, NBTTag.type] at h
  case BYTE =>
    cases hp : stoi txt with
    | none => rw [hp] at h; simp at h
    | some v =>
      rw [hp] at h
      have h2 := Option.some.inj h
      rw [← h2]
      exact ⟨rfl, rfl, rfl, rfl⟩
  case SHORT =>
    cases hp : stoi txt with
    | none => rw [hp] at h; simp at h
    | some v =>
      rw [hp] at h
      have h2 := Option.some.inj h
      rw [← h2]
      exact ⟨rfl, rfl, rfl, rfl⟩
  case INT =>
    cases hp : stoi txt with
    | none => rw [hp] at h; simp at h
    | some v =>
      rw [hp] at h
      have h2 := Option.some.inj h
      rw [← h2]
      exact ⟨rfl, rfl, rfl, rfl⟩
  case LONG =>
    cases hp : stoll txt with
    | none => rw [hp] at h; simp at h
    | some v =>
      rw [hp] at h
      have h2 := Option.some.inj h
      rw [← h2]
      exact ⟨rfl, rfl, rfl, rfl⟩
  case FLOAT =>
    cases hp : pf txt with
    | none => rw [hp] at h; simp at h
    | some v =>
      rw [hp] at h
      have h2 := Option.some.inj h
      rw [← h2]
      exact ⟨rfl, rfl, rfl, rfl⟩
  case DOUBLE =>
    cases hp : pd txt with
    | none => rw [hp] at h; simp at h
    | some v =>
      rw [hp] at h
      have h2 := Option.some.inj h
      rw [← h2]
      exact ⟨rfl, rfl, rfl, rfl⟩
  case STRING =>
    have h2 := Option.some.inj h
    rw [← h2]
    exact ⟨rfl, rfl, rfl, rfl⟩
  all_goals
    (have h2 := Option.some.inj h
     rw [← h2]
     exact ⟨rfl, rfl, rfl, rfl⟩)

theorem withCompoundVal_fields (t : NBTTag) (c : List (String × NBTTag)) :
    (t.withCompoundVal c).name = t.name ∧ (t.withCompoundVal c).type = t.type ∧
      (t.withCompoundVal c).listVal = t.listVal ∧ (t.withCompoundVal c).compoundVal = c := by
  cases t
  exact ⟨rfl, rfl, rfl, rfl⟩

/-- The `addTag` write (`compoundVal["new_tag"] = <STRING "new_tag" =
"value">`) preserves the key/name invariant: the inserted entry's key
equals the inserted child's name. -/
theorem kmn_addTag_write (x : NBTTag) (hx : keyMatchesName x = true) :
    keyMatchesName (x.withCompoundVal (mapInsert "new_tag"
      ((newTag .STRING "new_tag").withStringVal "value") x.compoundVal)) = true := by
  obtain ⟨hn, ht, hl, hc⟩ := withCompoundVal_fields x
    (mapInsert "new_tag" ((newTag .STRING "new_tag").withStringVal "value") x.compoundVal)
  rw [keyMatchesName_eq, ht, hl, hc]
  rw [keyMatchesName_eq] at hx
  cases hty : x.type <;> rw [hty] at hx
  case COMPOUND =>
    have hx2 : kmnPairs x.compoundVal = true := hx
    show kmnPairs
      (mapInsert "new_tag" ((newTag .STRING "new_tag").withStringVal "value")
        x.compoundVal) = true
    exact kmnPairs_mapInsert "new_tag" _ (by decide) (by decide) x.compoundVal hx2
  all_goals exact hx

/-- Every command except delete preserves the key/name invariant. -/
theorem kmn_handleInput (pf pd : String → Option Int) (k : Key) (input : String)
    (st : EditorState) (hkd : k ≠ Key.keyD) (h : keyMatchesName st.root = true) :
    keyMatchesName ((handleInput pf pd k input st).1).root = true := by
  cases k
  case up =>
    simp only [handleInput]
    split <;> exact h
  case down =>
    simp only [handleInput]
    split <;> exact h
  case keyE =>
    cases hsp : selectedPath st with
    | none => simp only [handleInput, editValue, hsp]; exact h
    | some p =>
      cases hg : getNode st.root p with
      | none => simp only [handleInput, editValue, hsp, hg]; exact h
      | some tag =>
        by_cases hsc : scalarEditable tag.type = true
        · cases hsv : setValueFromString pf pd tag input with
          | none => simp only [handleInput, editValue, hsp, hg, hsv, if_pos hsc]; exact h
          | some tag' =>
            simp only [handleInput, editValue, hsp, hg, hsv, if_pos hsc]
            obtain ⟨hn, ht2, hl2, hc2⟩ := setValueFromString_preserves pf pd tag tag' input hsv
            refine kmn_modifyNode p st.root tag (fun _ => tag') hg h hn (fun hkt => ?_)
            show keyMatchesName tag' = true
            rw [keyMatchesName_congr tag tag' ht2 hl2 hc2]
            exact hkt
        · simp only [handleInput, editValue, hsp, hg, if_neg hsc]; exact h
  case keyA =>
    cases hsp : selectedPath st with
    | none => simp only [handleInput, addTag, hsp]; exact h
    | some p =>
      cases hg : getNode st.root p with
      | none => simp only [handleInput, addTag, hsp, hg]; exact h
      | some tag =>
        by_cases hty : tag.type = TagType.COMPOUND
        · simp only [handleInput, addTag, hsp, hg, if_pos hty]
          refine kmn_modifyNode p st.root tag _ hg h ?_ (fun hkt => kmn_addTag_write tag hkt)
          exact (withCompoundVal_fields tag _).1
        · simp only [handleInput, addTag, hsp, hg, if_neg hty]; exact h
  case keyD => exact absurd rfl hkd
  case keyS =>
    simp only [handleInput, saveChanges, NBTFile.save, if_pos]
    exact h
  case other => exact h

/-- C10, amended: in every tree reachable from `load()` by any sequence
of editor commands that never includes delete (navigation, edit-value,
add-tag, save), each child stored in a Compound's name-keyed collection
sits under a key equal to that child's own name field.  (The delete
command breaks this: it renames the node's name field in place and leaves
the map key unchanged.) -/
theorem C10_key_matches_name_no_delete :
    ∀ st : EditorState, ReachNoDelete st → keyMatchesName st.root = true := by
  intro st h
  induction h with
  | init => decide
  | step st2 pf pd k input hre hk ih => exact kmn_handleInput pf pd k input st2 hk ih

theorem C10_key_matches_name_witness : keyMatchesName initState.root = true :=
  C10_key_matches_name_no_delete initState ReachNoDelete.init

/-- C10, counterexample: press down (select the first child, "health"),
then delete.  The resulting tree — reachable from load() by editor
operations — stores under key "health" a child whose name field is now
"[DELETED] health": the claimed invariant fails once deleteTag runs. -/
theorem C10_delete_breaks_invariant_cex :
    keyMatchesName
      ((handleInput noFloatParse noFloatParse Key.keyD ""
        ((handleInput noFloatParse noFloatParse Key.down "" initState).1)).1.root) = false ∧
    ((mapFind "health"
        ((handleInput noFloatParse noFloatParse Key.keyD ""
          ((handleInput noFloatParse noFloatParse Key.down "" initState).1)).1.root.compoundVal)).map
      NBTTag.name = some ("[DELETED] " ++ "health")) :=
  ⟨by decide, by decide⟩
